import Mathlib

/- Verification of the torch-mlir e2e-test TorchScript annotation module
   (`python/torch_mlir_e2e_test/torchscript/annotations.py`).

   The Python module tags methods of a `torch.nn.Module` tree with two
   out-of-band attributes (`_torch_mlir_export` and
   `_torch_mlir_arg_annotations`), extracts those tags into a plain
   serializable tree, and re-applies such a tree onto another module tree.

   Embedding choices:
   * a dtype is an opaque tag (`Nat`);
   * an attribute value (`Attr`) records whether it is callable, an opaque
     payload identifying the underlying object, and the two optional tag
     attributes (`none` models `hasattr` returning `False`);
   * a module is a finite tree: an ordered attribute dictionary (the
     `__dict__` seen by the extraction loop) plus an ordered dictionary of
     named children (`named_children()`);
   * the in-place mutation performed by `apply_serializable_annotations` is
     modelled by explicit state passing; the returned `Option String` is
     `none` on success and `some name` for the `AttributeError` raised by
     `getattr` on a missing `name`. -/

namespace Torchscript

/-- Opaque stand-in for `torch.dtype` values such as `torch.float32`. -/
abbrev Dtype := Nat

/-- Mirrors `ArgAnnotation = Tuple[List[int], torch.dtype]`: a shape, whose
entries may use `-1` for an unknown dimension size, and a dtype. -/
abbrev ArgAnnotation := List Int × Dtype

/-- Model of a Python attribute value as the annotation code observes it:
whether it is callable, an opaque payload identifying the underlying object,
and the two optional out-of-band tag attributes.  A `none` tag models the
attribute being absent, i.e. `hasattr` returning `False`. -/
structure Attr where
  isCallable : Bool
  payload : Nat
  «export» : Option Bool
  arg_annotations : Option (List (Option ArgAnnotation))
deriving DecidableEq, Repr

/-- Mirrors `TORCH_MLIR_EXPORT_ATTR_NAME`. -/
def TORCH_MLIR_EXPORT_ATTR_NAME : String := "_torch_mlir_export"

/-- Mirrors `TORCH_MLIR_ARG_ANNOTATIONS_ATTR_NAME`. -/
def TORCH_MLIR_ARG_ANNOTATIONS_ATTR_NAME : String := "_torch_mlir_arg_annotations"

/-- Mirrors the decorator `export`: it performs
`setattr(fn, TORCH_MLIR_EXPORT_ATTR_NAME, True)` and returns the same
callable.  The name is written with guillemets because `export` is a Lean
keyword. -/
def «export» (fn : Attr) : Attr := { fn with «export» := some true }

/-- Mirrors `annotate_args(annotations)`, which returns the decorator
performing `setattr(fn, TORCH_MLIR_ARG_ANNOTATIONS_ATTR_NAME, annotations)`
and returning the same callable; in Lean the function is curried. -/
def annotate_args (annotations : List (Option ArgAnnotation)) (fn : Attr) : Attr :=
  { fn with arg_annotations := some annotations }

/-- Mirrors the NamedTuple `SerializableMethodAnnotation`. -/
structure SerializableMethodAnnotation where
  method_name : String
  «export» : Option Bool
  arg_annotations : Option (List (Option ArgAnnotation))
deriving DecidableEq, Repr

/-- Model of a `torch.nn.Module`: an ordered dictionary of attributes (the
`__dict__` iterated by the extraction loop, also read and written by
`getattr`/`setattr` on method names) and an ordered dictionary of named
children (iterated by `named_children()` and read by `getattr` on child
names). -/
inductive Module where
  | mk (attrs : List (String × Attr)) (children : List (String × Module))

/-- Mirrors the NamedTuple `SerializableModuleAnnotations`. -/
inductive SerializableModuleAnnotations where
  | mk (method_annotations : List SerializableMethodAnnotation)
      (submodule_annotations : List (String × SerializableModuleAnnotations))

/-- Accessor for the attribute dictionary of a module. -/
def Module.attrs : Module → List (String × Attr)
  | .mk a _ => a

/-- Accessor for the named children of a module. -/
def Module.children : Module → List (String × Module)
  | .mk _ c => c

/-- Accessor for the `method_annotations` field. -/
def SerializableModuleAnnotations.method_annotations :
    SerializableModuleAnnotations → List SerializableMethodAnnotation
  | .mk m _ => m

/-- Accessor for the `submodule_annotations` field. -/
def SerializableModuleAnnotations.submodule_annotations :
    SerializableModuleAnnotations → List (String × SerializableModuleAnnotations)
  | .mk _ s => s

/-- Association-list lookup, modelling `getattr(obj, name)` over a name-keyed
dictionary; `none` models the raised `AttributeError`. -/
def dictGet {α : Type} : List (String × α) → String → Option α
  | [], _ => none
  | (k, v) :: rest, n => if k = n then some v else dictGet rest n

/-- Association-list update, modelling `setattr(obj, name, v)`: the binding
is replaced in place when the key is present and appended otherwise. -/
def dictSet {α : Type} : List (String × α) → String → α → List (String × α)
  | [], n, v => [(n, v)]
  | (k, w) :: rest, n, v =>
    if k = n then (k, v) :: rest else (k, w) :: dictSet rest n v

/-- Mirrors the method-extraction loop of `extract_serializable_annotations`:
for each callable attribute, read the two tag attributes (absent ones stay
`None`) and emit a record exactly when both are non-`None`. -/
def extractMethodAnnotations :
    List (String × Attr) → List SerializableMethodAnnotation
  | [] => []
  | (method_name, method) :: rest =>
    if method.isCallable then
      match method.«export», method.arg_annotations with
      | some e, some a =>
        { method_name := method_name, «export» := some e,
          arg_annotations := some a } :: extractMethodAnnotations rest
      | some _, none => extractMethodAnnotations rest
      | none, _ => extractMethodAnnotations rest
    else
      extractMethodAnnotations rest

mutual

/-- Mirrors `extract_serializable_annotations`: collect the method records of
the module itself, then recurse into the named children in order. -/
def extract_serializable_annotations : Module → SerializableModuleAnnotations
  | .mk attrs children =>
    .mk (extractMethodAnnotations attrs) (extractSubmodules children)

/-- Mirrors the `named_children()` recursion loop of
`extract_serializable_annotations`. -/
def extractSubmodules :
    List (String × Module) → List (String × SerializableModuleAnnotations)
  | [] => []
  | (name, child) :: rest =>
    (name, extract_serializable_annotations child) :: extractSubmodules rest

end

/-- Mirrors the `arg_annotations` half of one iteration of the method loop in
`apply_serializable_annotations`: when the record's `arg_annotations` is
non-`None`, `setattr(module, name, annotate_args(...)(getattr(module, name)))`. -/
def applyArgStep (attrs : List (String × Attr))
    (ma : SerializableMethodAnnotation) : List (String × Attr) × Option String :=
  match ma.arg_annotations with
  | none => (attrs, none)
  | some anns =>
    match dictGet attrs ma.method_name with
    | none => (attrs, some ma.method_name)
    | some fn => (dictSet attrs ma.method_name (annotate_args anns fn), none)

/-- Mirrors one iteration of the method loop in
`apply_serializable_annotations`: the `export` half first (when the record's
`export` is non-`None`, `setattr(module, name, export(getattr(module, name)))`),
then the `arg_annotations` half; a raised `AttributeError` aborts the
iteration. -/
def applyMethodAnnotationL (attrs : List (String × Attr))
    (ma : SerializableMethodAnnotation) : List (String × Attr) × Option String :=
  match ma.«export» with
  | none => applyArgStep attrs ma
  | some _ =>
    match dictGet attrs ma.method_name with
    | none => (attrs, some ma.method_name)
    | some fn => applyArgStep (dictSet attrs ma.method_name («export» fn)) ma

/-- Mirrors the whole method loop of `apply_serializable_annotations`,
processing the records in order and stopping at the first raised error. -/
def applyMethodAnnotationsL (attrs : List (String × Attr)) :
    List SerializableMethodAnnotation → List (String × Attr) × Option String
  | [] => (attrs, none)
  | ma :: rest =>
    match applyMethodAnnotationL attrs ma with
    | (attrs2, some e) => (attrs2, some e)
    | (attrs2, none) => applyMethodAnnotationsL attrs2 rest

mutual

/-- Mirrors `apply_serializable_annotations`: apply the method records to the
module's attributes, then recurse into the named children listed in
`submodule_annotations`; the returned `Option String` is `none` on success
and `some name` for the `AttributeError` raised on a missing `name`, in which
case the traversal stops and the mutations already made are kept. -/
def apply_serializable_annotations :
    Module → SerializableModuleAnnotations → Module × Option String
  | .mk attrs children, .mk mas subs =>
    match applyMethodAnnotationsL attrs mas with
    | (attrs2, some e) => (.mk attrs2 children, some e)
    | (attrs2, none) =>
      match applySubmodulesL children subs with
      | (children2, err) => (.mk attrs2 children2, err)

/-- Mirrors the submodule loop of `apply_serializable_annotations`:
`child = getattr(module, name)` followed by the recursive call; the child is
mutated in place, modelled by writing the updated child back into the
children dictionary. -/
def applySubmodulesL :
    List (String × Module) → List (String × SerializableModuleAnnotations) →
    List (String × Module) × Option String
  | children, [] => (children, none)
  | children, (name, sub) :: rest =>
    match dictGet children name with
    | none => (children, some name)
    | some child =>
      match apply_serializable_annotations child sub with
      | (child2, some e) => (dictSet children name child2, some e)
      | (child2, none) => applySubmodulesL (dictSet children name child2) rest

end

/-- Distinctness of the keys of an association list.  Python dictionaries
(`__dict__`, `named_children()`) cannot bind one name twice, so the
association lists representing them satisfy this predicate. -/
def nodupKeysB {α : Type} : List (String × α) → Bool
  | [] => true
  | (k, _) :: rest => rest.all (fun p => p.1 != k) && nodupKeysB rest

mutual

/-- Structural mirroring of an annotations tree over a module tree: at every
level the submodule-annotation entries correspond one-to-one, in order and by
name, to the module's named children. -/
def mirrorsB : Module → SerializableModuleAnnotations → Bool
  | .mk _ children, .mk _ subs => mirrorsSubsB children subs

/-- List part of `mirrorsB`: equal length, equal names in the same order,
recursive mirroring of the entries. -/
def mirrorsSubsB :
    List (String × Module) → List (String × SerializableModuleAnnotations) → Bool
  | [], [] => true
  | (n, c) :: rest, (n2, sub) :: rest2 =>
    (n == n2) && mirrorsB c sub && mirrorsSubsB rest rest2
  | [], _ :: _ => false
  | _ :: _, [] => false

end

mutual

/-- State-passing version of `extract_serializable_annotations`: the Python
function runs against a mutable module tree, so its faithful embedding
threads the module state through every operation the source performs (reads
of `__dict__`, reads of tag attributes, the recursion into children, whose
final state is written back in place of the child).  The second component is
the state of the input tree when the call returns. -/
def extractS : Module → SerializableModuleAnnotations × Module
  | .mk attrs children =>
    match extractSubmodulesS children with
    | (subs, children2) =>
      (.mk (extractMethodAnnotations attrs) subs, .mk attrs children2)

/-- List part of `extractS`, threading the children states. -/
def extractSubmodulesS :
    List (String × Module) →
    List (String × SerializableModuleAnnotations) × List (String × Module)
  | [] => ([], [])
  | (name, child) :: rest =>
    match extractS child, extractSubmodulesS rest with
    | (sub, child2), (subs, rest2) =>
      ((name, sub) :: subs, (name, child2) :: rest2)

end

/-- Boolean membership of a name in a name list. -/
def memB : List String → String → Bool
  | [], _ => false
  | k :: rest, n => (k == n) || memB rest n

/-- Name skeleton of a module tree: the attribute names and, recursively,
the named child skeletons.  Whether `apply_serializable_annotations` can
find every name it references depends only on this skeleton. -/
inductive Skel where
  | mk (attrNames : List String) (children : List (String × Skel))

mutual

/-- The name skeleton of a module. -/
def skel : Module → Skel
  | .mk attrs children => .mk (attrs.map Prod.fst) (skelSubs children)

/-- List part of `skel`. -/
def skelSubs : List (String × Module) → List (String × Skel)
  | [] => []
  | (n, c) :: rest => (n, skel c) :: skelSubs rest

end

mutual

/-- Does every name that `apply_serializable_annotations` would reference
exist on the corresponding node?  A method record reaches `getattr` with its
name only when at least one of its two components is non-absent; every
submodule annotation references its child name and recursively requires its
own referenced names to exist. -/
def structMatchB : Skel → SerializableModuleAnnotations → Bool
  | .mk names childSkels, .mk mas subs =>
    (mas.all fun ma =>
      (ma.«export».isNone && ma.arg_annotations.isNone) ||
        memB names ma.method_name) &&
    subsMatchB childSkels subs

/-- List part of `structMatchB`. -/
def subsMatchB :
    List (String × Skel) → List (String × SerializableModuleAnnotations) → Bool
  | _, [] => true
  | skels, (n, sub) :: rest =>
    match dictGet skels n with
    | none => false
    | some sk => structMatchB sk sub && subsMatchB skels rest

end

/-- Removal of both tag attributes from an attribute value. -/
def stripAttr (a : Attr) : Attr :=
  { a with «export» := none, arg_annotations := none }

mutual

/-- The tag-stripped copy of a module tree: the same attributes, payloads,
callability and children everywhere, but with no tag attribute anywhere — a
freshly constructed, structurally identical, not yet annotated instance. -/
def stripTags : Module → Module
  | .mk attrs children =>
    .mk (attrs.map fun p => (p.1, stripAttr p.2)) (stripSubs children)

/-- List part of `stripTags`. -/
def stripSubs : List (String × Module) → List (String × Module)
  | [] => []
  | (n, c) :: rest => (n, stripTags c) :: stripSubs rest

end

mutual

/-- Well-formedness of the model: attribute names and child names come from
Python dictionaries and are therefore distinct, at every node. -/
def wellFormedB : Module → Bool
  | .mk attrs children =>
    nodupKeysB attrs && nodupKeysB children && wfSubsB children

/-- List part of `wellFormedB`. -/
def wfSubsB : List (String × Module) → Bool
  | [] => true
  | (_, c) :: rest => wellFormedB c && wfSubsB rest

end

/-- Tag discipline of one attribute under which extraction loses nothing:
either untagged, or a callable carrying both tags with export flag `true`
(the only value the `export` decorator ever attaches). -/
def attrTagsGoodB (a : Attr) : Bool :=
  (a.«export».isNone && a.arg_annotations.isNone) ||
    (a.isCallable && a.«export» == some true && a.arg_annotations.isSome)

mutual

/-- Every attribute of every node satisfies `attrTagsGoodB`. -/
def tagsGoodB : Module → Bool
  | .mk attrs children =>
    attrs.all (fun p => attrTagsGoodB p.2) && tagsGoodSubsB children

/-- List part of `tagsGoodB`. -/
def tagsGoodSubsB : List (String × Module) → Bool
  | [] => true
  | (_, c) :: rest => tagsGoodB c && tagsGoodSubsB rest

end

/-- One attribute's part of the precondition of C1 exactly as stated: an
exported method — a callable carrying the export tag — also carries the
arg-annotations tag. -/
def attrExportedHasBothB (a : Attr) : Bool :=
  !(a.isCallable && a.«export».isSome) || a.arg_annotations.isSome

mutual

/-- The precondition of C1 exactly as stated, at every node of the tree. -/
def exportedImpliesBothB : Module → Bool
  | .mk attrs children =>
    attrs.all (fun p => attrExportedHasBothB p.2) && expBothSubsB children

/-- List part of `exportedImpliesBothB`. -/
def expBothSubsB : List (String × Module) → Bool
  | [] => true
  | (_, c) :: rest => exportedImpliesBothB c && expBothSubsB rest

end

/-- A source tree whose only method carries only the arg-annotations tag. -/
def onlyArgsSource : Module :=
  Module.mk [("f", ⟨true, 0, none, some []⟩)] []

/-- A two-level source tree with fully tagged methods, a `None` entry and a
`-1` wildcard dimension in the annotations, and an untagged non-callable
attribute. -/
def roundTripSample : Module :=
  Module.mk
    [("f", ⟨true, 0, some true, some [none, some ([-1, 3], 5)]⟩),
      ("v", ⟨false, 1, none, none⟩)]
    [("sub", Module.mk [("g", ⟨true, 2, some true, some [none]⟩)] [])]

@[simp] theorem Module.attrs_mk (a : List (String × Attr))
    (c : List (String × Module)) : (Module.mk a c).attrs = a := rfl

@[simp] theorem Module.children_mk (a : List (String × Attr))
    (c : List (String × Module)) : (Module.mk a c).children = c := rfl

@[simp] theorem SerializableModuleAnnotations.method_annotations_mk
    (m : List SerializableMethodAnnotation)
    (s : List (String × SerializableModuleAnnotations)) :
    ( SerializableModuleAnnotations.mk m s).method_annotations = m := rfl

@[simp] theorem SerializableModuleAnnotations.submodule_annotations_mk
    (m : List SerializableMethodAnnotation)
    (s : List (String × SerializableModuleAnnotations)) :
    ( SerializableModuleAnnotations.mk m s).submodule_annotations = s := rfl

theorem dictGet_dictSet {α : Type} (l : List (String × α)) (n : String) (v : α)
    (s : String) :
    dictGet (dictSet l n v) s = if n = s then some v else dictGet l s := by
  induction l with
  | nil => simp [dictGet, dictSet]
  | cons p rest ih =>
    obtain ⟨k, w⟩ := p
    by_cases h1 : k = n
    · subst h1
      by_cases h2 : k = s <;> simp [dictGet, dictSet, h2]
    · by_cases h2 : k = s
      · subst h2
        have h3 : ¬n = k := fun hh => h1 hh.symm
        simp [dictGet, dictSet, h1, h3]
      · simp [dictGet, dictSet, h1, h2, ih]

theorem dictSet_map_fst_of_get {α : Type} (l : List (String × α)) (n : String)
    (v : α) (h : (dictGet l n).isSome) :
    (dictSet l n v).map Prod.fst = l.map Prod.fst := by
  induction l with
  | nil => simp [dictGet] at h
  | cons p rest ih =>
    obtain ⟨k, w⟩ := p
    simp only [dictGet] at h
    simp only [dictSet]
    split_ifs with h1 <;> simp_all

theorem name_mem_of_mem_extractMethodAnnotations
    {r : SerializableMethodAnnotation} {attrs : List (String × Attr)}
    (h : r ∈ extractMethodAnnotations attrs) :
    r.method_name ∈ attrs.map Prod.fst := by
  induction attrs with
  | nil => simp [extractMethodAnnotations] at h
  | cons p rest ih =>
    obtain ⟨k, a⟩ := p
    simp only [extractMethodAnnotations] at h
    simp only [List.map_cons, List.mem_cons]
    split at h
    · split at h
      · rcases List.mem_cons.mp h with h1 | h2
        · subst h1; left; rfl
        · exact Or.inr (ih h2)
      · exact Or.inr (ih h)
      · exact Or.inr (ih h)
    · exact Or.inr (ih h)

/-- C5: `export` and `annotate_args` are idempotent and identity-preserving.
Each decorator returns the given callable unchanged except for its own tag:
`export` sets the export tag to `true` (and a second application leaves it
`true`), `annotate_args l` attaches exactly `l` (and a second application
with the same `l` leaves exactly `l` attached). -/
theorem claim5_decorators_idempotent (fn : Attr)
    (l : List (Option ArgAnnotation)) :
    «export» fn = { fn with «export» := some true } ∧
    «export» («export» fn) = «export» fn ∧
    («export» fn).«export» = some true ∧
    annotate_args l fn = { fn with arg_annotations := some l } ∧
    annotate_args l (annotate_args l fn) = annotate_args l fn ∧
    (annotate_args l fn).arg_annotations = some l :=
  ⟨rfl, rfl, rfl, rfl, rfl, rfl⟩

/-- C8: `apply_serializable_annotations` re-attaches only the components that
are non-absent in a method record.  For one method record, if the record's
`export` is absent the target method's export tag is unchanged (not cleared),
and if the record's `arg_annotations` is absent the target method's
arg-annotations tag is unchanged. -/
theorem claim8_absent_components_untouched (attrs : List (String × Attr))
    (ma : SerializableMethodAnnotation) (a a2 : Attr)
    (h1 : dictGet attrs ma.method_name = some a)
    (h2 : dictGet (applyMethodAnnotationL attrs ma).1 ma.method_name = some a2) :
    (ma.«export» = none → a2.«export» = a.«export») ∧
    (ma.arg_annotations = none → a2.arg_annotations = a.arg_annotations) := by
  obtain ⟨n, oe, oa⟩ := ma
  cases oe with
  | none =>
    cases oa with
    | none =>
      simp only [applyMethodAnnotationL, applyArgStep] at h2
      simp_all
    | some l =>
      simp only [applyMethodAnnotationL, applyArgStep, h1] at h2
      rw [dictGet_dictSet] at h2
      simp at h2
      subst h2
      simp [annotate_args]
  | some b =>
    cases oa with
    | none =>
      simp only [applyMethodAnnotationL, applyArgStep, h1] at h2
      rw [dictGet_dictSet] at h2
      simp at h2
      subst h2
      simp [«export»]
    | some l => simp

/-- Witness for C8 at a concrete input: a record with absent `export` and
present `arg_annotations` leaves the export tag of the target method exactly
as it was. -/
theorem claim8_witness :
    dictGet [("f", (⟨true, 0, some true, none⟩ : Attr))] "f" =
      some ⟨true, 0, some true, none⟩ ∧
    dictGet (applyMethodAnnotationL [("f", ⟨true, 0, some true, none⟩)]
        ⟨"f", none, some [none]⟩).1 "f" = some ⟨true, 0, some true, some [none]⟩ ∧
    ((( ⟨"f", none, some [none]⟩ : SerializableMethodAnnotation).«export» = none →
        (⟨true, 0, some true, some [none]⟩ : Attr).«export» =
          (⟨true, 0, some true, none⟩ : Attr).«export») ∧
      ((⟨"f", none, some [none]⟩ : SerializableMethodAnnotation).arg_annotations = none →
        (⟨true, 0, some true, some [none]⟩ : Attr).arg_annotations =
          (⟨true, 0, some true, none⟩ : Attr).arg_annotations)) :=
  ⟨rfl, rfl,
    claim8_absent_components_untouched [("f", ⟨true, 0, some true, none⟩)]
      ⟨"f", none, some [none]⟩ ⟨true, 0, some true, none⟩
      ⟨true, 0, some true, some [none]⟩ rfl rfl⟩

/-- C10: when a method record's `export` field is non-absent,
`apply_serializable_annotations` re-attaches the export tag through the
`export` decorator, so the attached value is `true` regardless of the
recorded boolean — in particular also when the record says `false`. -/
theorem claim10_export_reapplied_as_true (attrs : List (String × Attr))
    (ma : SerializableMethodAnnotation) (b : Bool) (a : Attr)
    (hb : ma.«export» = some b)
    (h1 : dictGet attrs ma.method_name = some a) :
    ∃ a2, dictGet (applyMethodAnnotationL attrs ma).1 ma.method_name = some a2 ∧
      a2.«export» = some true := by
  obtain ⟨n, oe, oa⟩ := ma
  subst hb
  cases oa <;>
    simp_all [applyMethodAnnotationL, applyArgStep, dictGet_dictSet,
      annotate_args, «export»]

/-- Witness for C10 at a concrete input: a record with `export = some false`
still results in the target method carrying export tag `true`. -/
theorem claim10_witness :
    ∃ a2, dictGet (applyMethodAnnotationL [("f", (⟨true, 0, none, none⟩ : Attr))]
        ⟨"f", some false, none⟩).1
        ( (⟨"f", some false, none⟩ : SerializableMethodAnnotation).method_name) =
      some a2 ∧ a2.«export» = some true :=
  claim10_export_reapplied_as_true [("f", ⟨true, 0, none, none⟩)]
    ⟨"f", some false, none⟩ false ⟨true, 0, none, none⟩ rfl rfl

theorem extract_name_ne_of_keys_ne {rest : List (String × Attr)} {k : String}
    (hall : ∀ p ∈ rest, p.1 ≠ k) :
    ∀ r ∈ extractMethodAnnotations rest, r.method_name ≠ k := by
  intro r hr
  have hmem := name_mem_of_mem_extractMethodAnnotations hr
  rw [List.mem_map] at hmem
  obtain ⟨p, hp, he⟩ := hmem
  exact he ▸ hall p hp

theorem extract_any_iff (attrs : List (String × Attr)) (n : String) (a : Attr)
    (hc : a.isCallable = true) :
    nodupKeysB attrs = true → dictGet attrs n = some a →
    (((extractMethodAnnotations attrs).any (fun r => r.method_name == n)) = true ↔
      (a.«export».isSome = true ∧ a.arg_annotations.isSome = true)) := by
  induction attrs with
  | nil => intro _ hget; simp [dictGet] at hget
  | cons p rest ih =>
    intro hn hget
    obtain ⟨k, w⟩ := p
    simp only [nodupKeysB, Bool.and_eq_true, List.all_eq_true] at hn
    obtain ⟨hall, hrest⟩ := hn
    have hall2 : ∀ p ∈ rest, p.1 ≠ k := by
      intro q hq
      have := hall q hq
      simpa using this
    by_cases hk : k = n
    · subst hk
      simp [dictGet] at hget
      subst hget
      have hfalse : (extractMethodAnnotations rest).any
          (fun r => r.method_name == k) = false := by
        rw [List.any_eq_false]
        intro r hr
        simpa using extract_name_ne_of_keys_ne hall2 r hr
      obtain ⟨wc, wp, we, wa⟩ := w
      simp only [Attr.isCallable] at hc
      subst hc
      cases we <;> cases wa <;> simp [extractMethodAnnotations, hfalse]
    · simp only [dictGet, if_neg hk] at hget
      have ihh := ih hrest hget
      have hkn : (k == n) = false := by simp [hk]
      simp only [extractMethodAnnotations]
      split
      · split
        · simpa [List.any_cons, hkn] using ihh
        · exact ihh
        · exact ihh
      · exact ihh

/-- C2: a method record for a given method appears in the output of
`extract_serializable_annotations` if and only if both the export tag and
the arg-annotations tag are present on that method at extraction time; a
method carrying only one of the two tags contributes nothing. -/
theorem claim2_extraction_iff_both_tags (m : Module) (n : String) (a : Attr)
    (hn : nodupKeysB m.attrs = true) (hget : dictGet m.attrs n = some a)
    (hc : a.isCallable = true) :
    (((extract_serializable_annotations m).method_annotations.any
        (fun r => r.method_name == n)) = true ↔
      (a.«export».isSome = true ∧ a.arg_annotations.isSome = true)) := by
  cases m with
  | mk attrs children =>
    simpa [extract_serializable_annotations] using
      extract_any_iff attrs n a hc hn hget

/-- Witness for C2 at concrete inputs: a method carrying both tags does
appear, and (using the same equivalence) one carrying only the export tag
would be characterised by the right-hand side being false. -/
theorem claim2_witness :
    ((extract_serializable_annotations
        (Module.mk [("f", ⟨true, 0, some true, some []⟩)] [])).method_annotations.any
      (fun r => r.method_name == "f")) = true ↔
    ((⟨true, 0, some true, some []⟩ : Attr).«export».isSome = true ∧
      (⟨true, 0, some true, some []⟩ : Attr).arg_annotations.isSome = true) :=
  claim2_extraction_iff_both_tags
    (Module.mk [("f", ⟨true, 0, some true, some []⟩)] []) "f"
    ⟨true, 0, some true, some []⟩ rfl rfl rfl

theorem extract_all_ne (attrs : List (String × Attr)) (n : String) (a : Attr)
    (hnc : a.isCallable = false) :
    nodupKeysB attrs = true → dictGet attrs n = some a →
    (extractMethodAnnotations attrs).all (fun r => r.method_name != n) = true := by
  induction attrs with
  | nil => intro _ hget; simp [dictGet] at hget
  | cons p rest ih =>
    intro hn hget
    obtain ⟨k, w⟩ := p
    simp only [nodupKeysB, Bool.and_eq_true, List.all_eq_true] at hn
    obtain ⟨hall, hrest⟩ := hn
    have hall2 : ∀ p ∈ rest, p.1 ≠ k := by
      intro q hq
      simpa using hall q hq
    by_cases hk : k = n
    · subst hk
      simp [dictGet] at hget
      subst hget
      have hne := extract_name_ne_of_keys_ne hall2
      simp only [extractMethodAnnotations, hnc, Bool.false_eq_true, if_false]
      rw [List.all_eq_true]
      intro r hr
      simpa using hne r hr
    · simp only [dictGet, if_neg hk] at hget
      have ihh := ih hrest hget
      have hkn : (k != n) = true := by simp [hk]
      simp only [extractMethodAnnotations]
      split
      · split
        · simpa [List.all_cons, hkn] using ihh
        · exact ihh
        · exact ihh
      · exact ihh

/-- C9: only callable members are candidates for extraction: a non-callable
attribute never contributes a method record, even when it carries both
tags. -/
theorem claim9_noncallable_never_extracted (m : Module) (n : String) (a : Attr)
    (hn : nodupKeysB m.attrs = true) (hget : dictGet m.attrs n = some a)
    (hnc : a.isCallable = false) :
    (extract_serializable_annotations m).method_annotations.all
      (fun r => r.method_name != n) = true := by
  cases m with
  | mk attrs children =>
    simpa [extract_serializable_annotations] using
      extract_all_ne attrs n a hnc hn hget

/-- Witness for C9 at a concrete input: a non-callable attribute carrying
both tags yields no method record named after it. -/
theorem claim9_witness :
    (extract_serializable_annotations
        (Module.mk [("v", ⟨false, 3, some true, some []⟩)] [])).method_annotations.all
      (fun r => r.method_name != "v") = true :=
  claim9_noncallable_never_extracted
    (Module.mk [("v", ⟨false, 3, some true, some []⟩)] []) "v"
    ⟨false, 3, some true, some []⟩ rfl rfl rfl

theorem extractSubmodules_map_fst (l : List (String × Module)) :
    (extractSubmodules l).map Prod.fst = l.map Prod.fst := by
  induction l with
  | nil => rfl
  | cons p rest ih =>
    obtain ⟨n, c⟩ := p
    simp [extractSubmodules, ih]

theorem extractSubmodules_length (l : List (String × Module)) :
    (extractSubmodules l).length = l.length := by
  induction l with
  | nil => rfl
  | cons p rest ih =>
    obtain ⟨n, c⟩ := p
    simp [extractSubmodules, ih]

mutual

theorem mirrors_extract : ∀ (m : Module),
    mirrorsB m (extract_serializable_annotations m) = true
  | .mk attrs children => by
    simp only [extract_serializable_annotations, mirrorsB]
    exact mirrors_extract_subs children

theorem mirrors_extract_subs : ∀ (l : List (String × Module)),
    mirrorsSubsB l (extractSubmodules l) = true
  | [] => rfl
  | (n, c) :: rest => by
    simp only [extractSubmodules, mirrorsSubsB]
    simp [mirrors_extract c, mirrors_extract_subs rest]

end

/-- C6: the output of `extract_serializable_annotations` structurally mirrors
the module tree: at every level the submodule-annotation entries correspond
one-to-one, in order and by name, to the named children; in particular the
number of entries equals the number of named children, and a module with no
methods and no children yields empty annotation lists. -/
theorem claim6_structural_mirroring (m : Module) :
    mirrorsB m (extract_serializable_annotations m) = true ∧
    (extract_serializable_annotations m).submodule_annotations.map Prod.fst =
      m.children.map Prod.fst ∧
    (extract_serializable_annotations m).submodule_annotations.length =
      m.children.length ∧
    extract_serializable_annotations (Module.mk [] []) =
      SerializableModuleAnnotations.mk [] [] := by
  refine ⟨mirrors_extract m, ?_, ?_, rfl⟩ <;>
    cases m with
    | mk attrs children =>
      simp [extract_serializable_annotations, extractSubmodules_map_fst,
        extractSubmodules_length]

mutual

theorem extractS_snd : ∀ (m : Module), (extractS m).2 = m
  | .mk attrs children => by
    rcases hE : extractSubmodulesS children with ⟨subs, children2⟩
    have h2 := extractSubmodulesS_snd children
    rw [hE] at h2
    simp at h2
    simp only [extractS, hE]
    simp [h2]

theorem extractSubmodulesS_snd : ∀ (l : List (String × Module)),
    (extractSubmodulesS l).2 = l
  | [] => rfl
  | (name, child) :: rest => by
    rcases hc : extractS child with ⟨sub, child2⟩
    rcases hr : extractSubmodulesS rest with ⟨subs, rest2⟩
    have h1 := extractS_snd child
    have h2 := extractSubmodulesS_snd rest
    rw [hc] at h1
    rw [hr] at h2
    simp at h1 h2
    simp only [extractSubmodulesS, hc, hr]
    simp [h1, h2]

end

mutual

theorem extractS_fst : ∀ (m : Module),
    (extractS m).1 = extract_serializable_annotations m
  | .mk attrs children => by
    rcases hE : extractSubmodulesS children with ⟨subs, children2⟩
    have h2 := extractSubmodulesS_fst children
    rw [hE] at h2
    simp at h2
    simp only [extractS, extract_serializable_annotations, hE]
    simp [h2]

theorem extractSubmodulesS_fst : ∀ (l : List (String × Module)),
    (extractSubmodulesS l).1 = extractSubmodules l
  | [] => rfl
  | (name, child) :: rest => by
    rcases hc : extractS child with ⟨sub, child2⟩
    rcases hr : extractSubmodulesS rest with ⟨subs, rest2⟩
    have h1 := extractS_fst child
    have h2 := extractSubmodulesS_fst rest
    rw [hc] at h1
    rw [hr] at h2
    simp at h1 h2
    simp only [extractSubmodulesS, extractSubmodules, hc, hr]
    simp [h1, h2]

end

/-- C7: extraction is read-only.  In the state-passing embedding `extractS`,
which threads the module state through every operation the Python function
performs, the state returned after the call equals the input tree exactly
(same attributes, tags and children everywhere), and the annotations
computed agree with the pure `extract_serializable_annotations`. -/
theorem claim7_extraction_read_only (m : Module) :
    (extractS m).2 = m ∧
    (extractS m).1 = extract_serializable_annotations m :=
  ⟨extractS_snd m, extractS_fst m⟩

theorem applyMethodAnnotationsL_append (attrs : List (String × Attr))
    (l1 l2 : List SerializableMethodAnnotation) :
    applyMethodAnnotationsL attrs (l1 ++ l2) =
      match applyMethodAnnotationsL attrs l1 with
      | (attrs2, some e) => (attrs2, some e)
      | (attrs2, none) => applyMethodAnnotationsL attrs2 l2 := by
  induction l1 generalizing attrs with
  | nil => simp [applyMethodAnnotationsL]
  | cons ma rest ih =>
    simp only [List.cons_append, applyMethodAnnotationsL]
    rcases h : applyMethodAnnotationL attrs ma with ⟨attrs2, e⟩
    cases e <;> simp [h, ih]

theorem applySubmodulesL_append
    (s1 s2 : List (String × SerializableModuleAnnotations)) :
    ∀ children : List (String × Module),
    applySubmodulesL children (s1 ++ s2) =
      match applySubmodulesL children s1 with
      | (children2, some e) => (children2, some e)
      | (children2, none) => applySubmodulesL children2 s2 := by
  induction s1 with
  | nil => intro children; rfl
  | cons p rest ih =>
    obtain ⟨n, sub⟩ := p
    intro children
    simp only [List.cons_append, applySubmodulesL]
    cases hget : dictGet children n with
    | none => rfl
    | some child =>
      rcases ha : apply_serializable_annotations child sub with ⟨child2, e⟩
      cases e with
      | some err => simp [ha]
      | none => simp [ha, ih (dictSet children n child2)]

theorem applySubmodulesL_append_ok
    (s1 s2 : List (String × SerializableModuleAnnotations))
    (children children1 : List (String × Module))
    (h : applySubmodulesL children s1 = (children1, none)) :
    applySubmodulesL children (s1 ++ s2) = applySubmodulesL children1 s2 := by
  have happ := applySubmodulesL_append s1 s2 children
  rw [h] at happ
  simpa using happ

theorem applySubmodulesL_cons_of_err (children children2 : List (String × Module))
    (name : String) (sub : SerializableModuleAnnotations) (e : String)
    (rest : List (String × SerializableModuleAnnotations))
    (h : applySubmodulesL children [(name, sub)] = (children2, some e)) :
    applySubmodulesL children ((name, sub) :: rest) = (children2, some e) := by
  cases hget : dictGet children name with
  | none =>
    simp only [applySubmodulesL, hget] at h ⊢
    exact h
  | some child =>
    rcases ha : apply_serializable_annotations child sub with ⟨c2, e2⟩
    cases e2 with
    | some err =>
      simp only [applySubmodulesL, hget, ha] at h ⊢
      exact h
    | none =>
      simp only [applySubmodulesL, hget, ha] at h
      simp at h

/-- C4: `apply_serializable_annotations` is not atomic.  Whatever point of
the traversal a name lookup fails at, the call returns at that point and
every node visited before the failure keeps the mutations already applied to
it, while everything not yet visited is left unchanged and unapplied.  First
conjunct — the lookup fails in the module's own method loop after a prefix
`mas1` of the records was applied: the result keeps the mutations
`attrs → attrs1` made by that prefix and the failing record's partial step
`attrs1 → attrs2`, while the remaining records `rest`, the children and all
submodule annotations `subs` are untouched.  Second conjunct — the method
loop succeeded (`attrs → attrs1`) and the failure happens in the submodule
loop after a prefix `subs1` was applied (`children → children1`, mutating the
children visited so far in place): whether the failing entry's child name is
missing or the recursive call inside that child fails partway
(`applySubmodulesL children1 [(name, sub)] = (children2, some e)` covers
both, `children2` keeping the failing child's partial mutations), the call
returns those mutated states and the remaining entries `rest` are never
applied. -/
theorem claim4_partial_application :
    (∀ (attrs attrs1 attrs2 : List (String × Attr))
        (children : List (String × Module))
        (mas1 rest : List SerializableMethodAnnotation)
        (ma : SerializableMethodAnnotation)
        (subs : List (String × SerializableModuleAnnotations)) (e : String),
      applyMethodAnnotationsL attrs mas1 = (attrs1, none) →
      applyMethodAnnotationL attrs1 ma = (attrs2, some e) →
      apply_serializable_annotations (Module.mk attrs children)
        (SerializableModuleAnnotations.mk (mas1 ++ ma :: rest) subs) =
        (Module.mk attrs2 children, some e)) ∧
    (∀ (attrs attrs1 : List (String × Attr))
        (children children1 children2 : List (String × Module))
        (mas : List SerializableMethodAnnotation)
        (subs1 rest : List (String × SerializableModuleAnnotations))
        (name : String) (sub : SerializableModuleAnnotations) (e : String),
      applyMethodAnnotationsL attrs mas = (attrs1, none) →
      applySubmodulesL children subs1 = (children1, none) →
      applySubmodulesL children1 [(name, sub)] = (children2, some e) →
      apply_serializable_annotations (Module.mk attrs children)
        (SerializableModuleAnnotations.mk mas (subs1 ++ (name, sub) :: rest)) =
        (Module.mk attrs1 children2, some e)) := by
  constructor
  · intro attrs attrs1 attrs2 children mas1 rest ma subs e h1 h2
    have happ := applyMethodAnnotationsL_append attrs mas1 (ma :: rest)
    rw [h1] at happ
    simp only [applyMethodAnnotationsL, h2] at happ
    simp only [apply_serializable_annotations, happ]
  · intro attrs attrs1 children children1 children2 mas subs1 rest name sub e h1 h2 h3
    have hsub : applySubmodulesL children (subs1 ++ (name, sub) :: rest) =
        (children2, some e) := by
      rw [applySubmodulesL_append_ok subs1 ((name, sub) :: rest)
        children children1 h2]
      exact applySubmodulesL_cons_of_err children1 children2 name sub e rest h3
    simp [apply_serializable_annotations, h1, hsub]

/-- Witness for C4 at concrete inputs, exercising both failure points.
Method loop: after the record for `f` is applied, the record for the missing
method `g` fails; the result keeps `f`'s new tag while the record for `h`
and the submodule annotations are never applied.  Submodule loop: after the
root method `f` is tagged and the visited child `c1` has its method `g`
tagged, the entry for child `c2` fails (its method `h` is missing); the
result keeps the mutations of `f` and of the earlier-visited `c1`, and the
entry for the never-visited name `c3` is not applied (nor required to
exist). -/
theorem claim4_witness :
    applyMethodAnnotationsL [("f", (⟨true, 0, none, none⟩ : Attr)), ("h", ⟨true, 1, none, none⟩)]
        [⟨"f", some true, none⟩] =
      ([("f", ⟨true, 0, some true, none⟩), ("h", ⟨true, 1, none, none⟩)], none) ∧
    applyMethodAnnotationL [("f", (⟨true, 0, some true, none⟩ : Attr)), ("h", ⟨true, 1, none, none⟩)]
        ⟨"g", some true, none⟩ =
      ([("f", ⟨true, 0, some true, none⟩), ("h", ⟨true, 1, none, none⟩)], some "g") ∧
    apply_serializable_annotations
        (Module.mk [("f", ⟨true, 0, none, none⟩), ("h", ⟨true, 1, none, none⟩)] [])
        (SerializableModuleAnnotations.mk
          ([⟨"f", some true, none⟩] ++ ⟨"g", some true, none⟩ :: [⟨"h", some true, none⟩])
          []) =
      (Module.mk [("f", ⟨true, 0, some true, none⟩), ("h", ⟨true, 1, none, none⟩)] [],
        some "g") ∧
    applyMethodAnnotationsL [("f", (⟨true, 0, none, none⟩ : Attr))]
        [⟨"f", some true, none⟩] =
      ([("f", ⟨true, 0, some true, none⟩)], none) ∧
    applySubmodulesL
        [("c1", Module.mk [("g", (⟨true, 1, none, none⟩ : Attr))] []),
          ("c2", Module.mk [] [])]
        [("c1", SerializableModuleAnnotations.mk [⟨"g", some true, none⟩] [])] =
      ([("c1", Module.mk [("g", ⟨true, 1, some true, none⟩)] []),
        ("c2", Module.mk [] [])], none) ∧
    applySubmodulesL
        [("c1", Module.mk [("g", (⟨true, 1, some true, none⟩ : Attr))] []),
          ("c2", Module.mk [] [])]
        [("c2", SerializableModuleAnnotations.mk [⟨"h", some true, none⟩] [])] =
      ([("c1", Module.mk [("g", ⟨true, 1, some true, none⟩)] []),
        ("c2", Module.mk [] [])], some "h") ∧
    apply_serializable_annotations
        (Module.mk [("f", ⟨true, 0, none, none⟩)]
          [("c1", Module.mk [("g", ⟨true, 1, none, none⟩)] []),
            ("c2", Module.mk [] [])])
        (SerializableModuleAnnotations.mk [⟨"f", some true, none⟩]
          ([("c1", SerializableModuleAnnotations.mk [⟨"g", some true, none⟩] [])] ++
            ("c2", SerializableModuleAnnotations.mk [⟨"h", some true, none⟩] []) ::
              [("c3", SerializableModuleAnnotations.mk [] [])])) =
      (Module.mk [("f", ⟨true, 0, some true, none⟩)]
        [("c1", Module.mk [("g", ⟨true, 1, some true, none⟩)] []),
          ("c2", Module.mk [] [])], some "h") :=
  ⟨rfl, rfl,
    claim4_partial_application.1
      [("f", ⟨true, 0, none, none⟩), ("h", ⟨true, 1, none, none⟩)]
      [("f", ⟨true, 0, some true, none⟩), ("h", ⟨true, 1, none, none⟩)]
      [("f", ⟨true, 0, some true, none⟩), ("h", ⟨true, 1, none, none⟩)]
      [] [⟨"f", some true, none⟩] [⟨"h", some true, none⟩]
      ⟨"g", some true, none⟩ [] "g" rfl rfl,
    rfl, rfl, rfl,
    claim4_partial_application.2
      [("f", ⟨true, 0, none, none⟩)]
      [("f", ⟨true, 0, some true, none⟩)]
      [("c1", Module.mk [("g", ⟨true, 1, none, none⟩)] []), ("c2", Module.mk [] [])]
      [("c1", Module.mk [("g", ⟨true, 1, some true, none⟩)] []), ("c2", Module.mk [] [])]
      [("c1", Module.mk [("g", ⟨true, 1, some true, none⟩)] []), ("c2", Module.mk [] [])]
      [⟨"f", some true, none⟩]
      [("c1", SerializableModuleAnnotations.mk [⟨"g", some true, none⟩] [])]
      [("c3", SerializableModuleAnnotations.mk [] [])]
      "c2" (SerializableModuleAnnotations.mk [⟨"h", some true, none⟩] [])
      "h" rfl rfl rfl⟩

theorem dictGet_isSome_eq_memB {α : Type} (l : List (String × α)) (n : String) :
    (dictGet l n).isSome = memB (l.map Prod.fst) n := by
  induction l with
  | nil => rfl
  | cons p rest ih =>
    obtain ⟨k, v⟩ := p
    by_cases h : k = n <;> simp [dictGet, memB, h, ih]

theorem dictGet_skelSubs (l : List (String × Module)) (n : String) :
    dictGet (skelSubs l) n = (dictGet l n).map skel := by
  induction l with
  | nil => rfl
  | cons p rest ih =>
    obtain ⟨k, c⟩ := p
    by_cases h : k = n <;> simp [skelSubs, dictGet, h, ih]

theorem applyArgStep_map_fst (attrs : List (String × Attr))
    (ma : SerializableMethodAnnotation) :
    ((applyArgStep attrs ma).1).map Prod.fst = attrs.map Prod.fst := by
  rcases ma with ⟨n, oe, oa⟩
  cases oa with
  | none => rfl
  | some anns =>
    simp only [applyArgStep]
    cases h : dictGet attrs n with
    | none => rfl
    | some fn =>
      simpa using
        dictSet_map_fst_of_get attrs n (annotate_args anns fn) (by simp [h])

theorem applyMethodAnnotationL_map_fst (attrs : List (String × Attr))
    (ma : SerializableMethodAnnotation) :
    ((applyMethodAnnotationL attrs ma).1).map Prod.fst = attrs.map Prod.fst := by
  rcases ma with ⟨n, oe, oa⟩
  cases oe with
  | none => exact applyArgStep_map_fst attrs ⟨n, none, oa⟩
  | some b =>
    simp only [applyMethodAnnotationL]
    cases h : dictGet attrs n with
    | none => rfl
    | some fn =>
      rw [applyArgStep_map_fst (dictSet attrs n («export» fn)) ⟨n, some b, oa⟩]
      exact dictSet_map_fst_of_get attrs n («export» fn) (by simp [h])

theorem applyMethodAnnotationsL_map_fst
    (mas : List SerializableMethodAnnotation) :
    ∀ attrs : List (String × Attr),
    ((applyMethodAnnotationsL attrs mas).1).map Prod.fst = attrs.map Prod.fst := by
  induction mas with
  | nil => intro attrs; rfl
  | cons ma rest ih =>
    intro attrs
    simp only [applyMethodAnnotationsL]
    rcases h : applyMethodAnnotationL attrs ma with ⟨attrs2, e⟩
    have hstep : attrs2.map Prod.fst = attrs.map Prod.fst := by
      have h2 := applyMethodAnnotationL_map_fst attrs ma
      rw [h] at h2
      simpa using h2
    cases e with
    | some err => simp [h, hstep]
    | none => simp [h, ih attrs2, hstep]

theorem skelSubs_dictSet (children : List (String × Module)) (n : String)
    (c c2 : Module) (hget : dictGet children n = some c)
    (hsk : skel c2 = skel c) :
    skelSubs (dictSet children n c2) = skelSubs children := by
  induction children with
  | nil => simp [dictGet] at hget
  | cons p rest ih =>
    obtain ⟨k, w⟩ := p
    by_cases hk : k = n
    · subst hk
      simp [dictGet] at hget
      subst hget
      simp [dictSet, skelSubs, hsk]
    · simp only [dictGet, if_neg hk] at hget
      simp [dictSet, hk, skelSubs, ih hget]

mutual

theorem skel_apply : ∀ (anns : SerializableModuleAnnotations) (m : Module),
    skel ((apply_serializable_annotations m anns).1) = skel m
  | .mk mas subs, .mk attrs children => by
    simp only [apply_serializable_annotations]
    rcases hm : applyMethodAnnotationsL attrs mas with ⟨attrs2, e⟩
    have hattrs : attrs2.map Prod.fst = attrs.map Prod.fst := by
      have h2 := applyMethodAnnotationsL_map_fst mas attrs
      rw [hm] at h2
      simpa using h2
    cases e with
    | some err => simp [hm, skel, hattrs]
    | none =>
      rcases hc : applySubmodulesL children subs with ⟨children2, err2⟩
      have hch := skelSubs_applySubmodulesL subs children
      rw [hc] at hch
      simp at hch
      simp [hm, hc, skel, hattrs, hch]

theorem skelSubs_applySubmodulesL :
    ∀ (subs : List (String × SerializableModuleAnnotations))
      (children : List (String × Module)),
    skelSubs ((applySubmodulesL children subs).1) = skelSubs children
  | [], children => rfl
  | (n, sub) :: rest, children => by
    simp only [applySubmodulesL]
    cases hget : dictGet children n with
    | none => simp
    | some child =>
      rcases ha : apply_serializable_annotations child sub with ⟨child2, e⟩
      have hsk : skel child2 = skel child := by
        have h2 := skel_apply sub child
        rw [ha] at h2
        simpa using h2
      have hset := skelSubs_dictSet children n child child2 hget hsk
      cases e with
      | some err => simp [ha, hset]
      | none =>
        have hrest := skelSubs_applySubmodulesL rest (dictSet children n child2)
        simp [ha, hrest, hset]

end

theorem applyMethodAnnotationL_ok_mem (attrs : List (String × Attr))
    (ma : SerializableMethodAnnotation) (attrs2 : List (String × Attr))
    (h : applyMethodAnnotationL attrs ma = (attrs2, none)) :
    ((ma.«export».isNone && ma.arg_annotations.isNone) ||
      memB (attrs.map Prod.fst) ma.method_name) = true := by
  rcases ma with ⟨n, oe, oa⟩
  cases oe with
  | none =>
    cases oa with
    | none => simp
    | some anns =>
      simp only [applyMethodAnnotationL, applyArgStep] at h
      by_cases hs : (dictGet attrs n).isSome
      · rw [dictGet_isSome_eq_memB] at hs
        simp only [hs]
        simp
      · have hnone : dictGet attrs n = none := by
          cases hd : dictGet attrs n with
          | none => rfl
          | some fn => rw [hd] at hs; simp at hs
        rw [hnone] at h
        simp at h
  | some b =>
    simp only [applyMethodAnnotationL] at h
    by_cases hs : (dictGet attrs n).isSome
    · rw [dictGet_isSome_eq_memB] at hs
      simp only [hs]
      simp
    · have hnone : dictGet attrs n = none := by
        cases hd : dictGet attrs n with
        | none => rfl
        | some fn => rw [hd] at hs; simp at hs
      rw [hnone] at h
      simp at h

theorem applyMethodAnnotationsL_ok_all
    (mas : List SerializableMethodAnnotation) :
    ∀ attrs attrs2 : List (String × Attr),
    applyMethodAnnotationsL attrs mas = (attrs2, none) →
    (mas.all fun ma =>
      (ma.«export».isNone && ma.arg_annotations.isNone) ||
        memB (attrs.map Prod.fst) ma.method_name) = true := by
  induction mas with
  | nil => intro attrs attrs2 _; rfl
  | cons ma rest ih =>
    intro attrs attrs2 h
    simp only [applyMethodAnnotationsL] at h
    rcases hstep : applyMethodAnnotationL attrs ma with ⟨attrs1, e⟩
    rw [hstep] at h
    cases e with
    | some err => simp at h
    | none =>
      have hmem := applyMethodAnnotationL_ok_mem attrs ma attrs1 hstep
      have hkeys : attrs1.map Prod.fst = attrs.map Prod.fst := by
        have h2 := applyMethodAnnotationL_map_fst attrs ma
        rw [hstep] at h2
        simpa using h2
      have hrest := ih attrs1 attrs2 (by simpa using h)
      rw [hkeys] at hrest
      simp [List.all_cons, hmem, hrest]

mutual

theorem apply_ok_structMatch :
    ∀ (anns : SerializableModuleAnnotations) (m m2 : Module),
    apply_serializable_annotations m anns = (m2, none) →
    structMatchB (skel m) anns = true
  | .mk mas subs, .mk attrs children, m2 => by
    intro h
    simp only [apply_serializable_annotations] at h
    rcases hm : applyMethodAnnotationsL attrs mas with ⟨attrs2, e⟩
    rw [hm] at h
    cases e with
    | some err => simp at h
    | none =>
      rcases hc : applySubmodulesL children subs with ⟨children2, err2⟩
      rw [hc] at h
      simp at h
      have hall := applyMethodAnnotationsL_ok_all mas attrs attrs2 hm
      have hsubs := applySubmodulesL_ok_subsMatch subs children children2
        (by rw [hc, h.2])
      simp [structMatchB, skel, hall, hsubs]

theorem applySubmodulesL_ok_subsMatch :
    ∀ (subs : List (String × SerializableModuleAnnotations))
      (children children2 : List (String × Module)),
    applySubmodulesL children subs = (children2, none) →
    subsMatchB (skelSubs children) subs = true
  | [], children, children2 => fun _ => rfl
  | (n, sub) :: rest, children, children2 => by
    intro h
    simp only [applySubmodulesL] at h
    split at h
    · simp at h
    · rename_i child hget
      rcases ha : apply_serializable_annotations child sub with ⟨child2, e⟩
      rw [ha] at h
      cases e with
      | some err => simp at h
      | none =>
        have hmatch := apply_ok_structMatch sub child child2 ha
        have hsk : skel child2 = skel child := by
          have h2 := skel_apply sub child
          rw [ha] at h2
          simpa using h2
        have hrest := applySubmodulesL_ok_subsMatch rest
          (dictSet children n child2) children2 (by simpa using h)
        rw [skelSubs_dictSet children n child child2 hget hsk] at hrest
        simp only [subsMatchB, dictGet_skelSubs, hget, Option.map_some]
        simp [hmatch, hrest]

end

/-- C3 (amended): if the annotations tree references, at a node reached
through existing child names, a child name that does not exist there, or a
method name — in a record with at least one non-absent component — that does
not exist there (`structMatchB` is false exactly in that case), then
`apply_serializable_annotations` returns the attribute-not-found error to
its caller; the missing name is not skipped and nothing is recovered
internally.  The amendment: a record whose components are both absent never
reaches `getattr` in the source, so its method name is not looked up (see
the counterexample). -/
theorem claim3_missing_name_error (m : Module)
    (anns : SerializableModuleAnnotations)
    (h : structMatchB (skel m) anns = false) :
    ((apply_serializable_annotations m anns).2).isSome = true := by
  rcases ha : apply_serializable_annotations m anns with ⟨m2, e⟩
  cases e with
  | some err => simp [ha]
  | none =>
    exfalso
    have h2 := apply_ok_structMatch anns m m2 ha
    rw [h] at h2
    exact Bool.false_ne_true h2

/-- Counterexample to C3 as stated: the annotations tree contains the method
name `"foo"`, which does not exist on the (empty) target module, yet
`apply_serializable_annotations` raises nothing and returns successfully,
because a record with both components absent never reaches `getattr`.  The
claim says every missing method name contained in the tree raises an
attribute-not-found error. -/
theorem claim3_counterexample :
    dictGet (Module.mk [] []).attrs "foo" = none ∧
    apply_serializable_annotations (Module.mk [] [])
      (SerializableModuleAnnotations.mk [⟨"foo", none, none⟩] []) =
      (Module.mk [] [], none) :=
  ⟨rfl, rfl⟩

/-- Witness for the amended C3 at a concrete input: a record for the missing
method `"foo"` with a non-absent export component makes the call return the
attribute-not-found error. -/
theorem claim3_witness :
    structMatchB (skel (Module.mk [] []))
      (SerializableModuleAnnotations.mk [⟨"foo", some true, none⟩] []) = false ∧
    ((apply_serializable_annotations (Module.mk [] [])
        (SerializableModuleAnnotations.mk [⟨"foo", some true, none⟩] [])).2).isSome =
      true :=
  ⟨rfl, claim3_missing_name_error (Module.mk [] [])
    (SerializableModuleAnnotations.mk [⟨"foo", some true, none⟩] []) rfl⟩

theorem applyArgStep_cons_ne (k : String) (a : Attr)
    (attrs : List (String × Attr)) (ma : SerializableMethodAnnotation)
    (hne : ma.method_name ≠ k) :
    applyArgStep ((k, a) :: attrs) ma =
      ((k, a) :: (applyArgStep attrs ma).1, (applyArgStep attrs ma).2) := by
  rcases ma with ⟨n, oe, oa⟩
  have hkn : ¬k = n := fun hh => hne hh.symm
  cases oa with
  | none => rfl
  | some anns =>
    simp only [applyArgStep]
    simp only [dictGet, if_neg hkn]
    cases hget : dictGet attrs n with
    | none => rfl
    | some fn => simp [dictSet, hkn]

theorem applyMethodAnnotationL_cons_ne (k : String) (a : Attr)
    (attrs : List (String × Attr)) (ma : SerializableMethodAnnotation)
    (hne : ma.method_name ≠ k) :
    applyMethodAnnotationL ((k, a) :: attrs) ma =
      ((k, a) :: (applyMethodAnnotationL attrs ma).1,
        (applyMethodAnnotationL attrs ma).2) := by
  rcases ma with ⟨n, oe, oa⟩
  have hkn : ¬k = n := fun hh => hne hh.symm
  cases oe with
  | none => exact applyArgStep_cons_ne k a attrs ⟨n, none, oa⟩ hne
  | some b =>
    simp only [applyMethodAnnotationL]
    simp only [dictGet, if_neg hkn]
    cases hget : dictGet attrs n with
    | none => rfl
    | some fn =>
      simp only [dictSet, if_neg hkn]
      exact applyArgStep_cons_ne k a (dictSet attrs n («export» fn))
        ⟨n, some b, oa⟩ hne

theorem applyMethodAnnotationsL_cons_ne (k : String) (a : Attr)
    (mas : List SerializableMethodAnnotation) :
    ∀ attrs : List (String × Attr), (∀ ma ∈ mas, ma.method_name ≠ k) →
    applyMethodAnnotationsL ((k, a) :: attrs) mas =
      ((k, a) :: (applyMethodAnnotationsL attrs mas).1,
        (applyMethodAnnotationsL attrs mas).2) := by
  induction mas with
  | nil => intro attrs _; rfl
  | cons ma rest ih =>
    intro attrs hall
    have hma : ma.method_name ≠ k := hall ma (List.mem_cons_self ma rest)
    have hrest : ∀ x ∈ rest, x.method_name ≠ k :=
      fun x hx => hall x (List.mem_cons_of_mem ma hx)
    simp only [applyMethodAnnotationsL]
    rw [applyMethodAnnotationL_cons_ne k a attrs ma hma]
    rcases hstep : applyMethodAnnotationL attrs ma with ⟨attrs1, e⟩
    cases e with
    | some err => simp [hstep]
    | none => simp [hstep, ih attrs1 hrest]

theorem applySubmodulesL_cons_ne (k : String) (c : Module)
    (subs : List (String × SerializableModuleAnnotations)) :
    ∀ children : List (String × Module), (∀ p ∈ subs, p.1 ≠ k) →
    applySubmodulesL ((k, c) :: children) subs =
      ((k, c) :: (applySubmodulesL children subs).1,
        (applySubmodulesL children subs).2) := by
  induction subs with
  | nil => intro children _; rfl
  | cons p rest ih =>
    obtain ⟨n, sub⟩ := p
    intro children hall
    have hn : n ≠ k := hall (n, sub) (List.mem_cons_self _ _)
    have hrest : ∀ q ∈ rest, q.1 ≠ k :=
      fun q hq => hall q (List.mem_cons_of_mem _ hq)
    have hkn : ¬k = n := fun hh => hn hh.symm
    simp only [applySubmodulesL]
    simp only [dictGet, if_neg hkn]
    cases hget : dictGet children n with
    | none => rfl
    | some child =>
      rcases ha : apply_serializable_annotations child sub with ⟨child2, e⟩
      cases e with
      | some err => simp [dictSet, ha, hkn]
      | none => simp [dictSet, ha, hkn, ih (dictSet children n child2) hrest]

theorem roundtrip_attrs (attrs : List (String × Attr)) :
    nodupKeysB attrs = true → attrs.all (fun p => attrTagsGoodB p.2) = true →
    applyMethodAnnotationsL (attrs.map fun p => (p.1, stripAttr p.2))
      (extractMethodAnnotations attrs) = (attrs, none) := by
  induction attrs with
  | nil => intro _ _; rfl
  | cons p rest ih =>
    intro hn hg
    obtain ⟨k, a⟩ := p
    simp only [nodupKeysB, Bool.and_eq_true] at hn
    obtain ⟨hall, hnrest⟩ := hn
    simp only [List.all_cons, Bool.and_eq_true] at hg
    obtain ⟨hga, hgrest⟩ := hg
    have hall2 : ∀ q ∈ rest, q.1 ≠ k := by
      intro q hq
      simpa using List.all_eq_true.mp hall q hq
    have hne := extract_name_ne_of_keys_ne hall2
    rcases a with ⟨ac, ap, aoe, aoa⟩
    simp only [attrTagsGoodB, Bool.or_eq_true, Bool.and_eq_true] at hga
    rcases hga with ⟨he, ha⟩ | ⟨⟨hc, he⟩, ha⟩
    · -- untagged attribute: the record is not extracted, the stripped copy
      -- already equals it
      have he2 : aoe = none := by simpa using he
      have ha2 : aoa = none := by simpa using ha
      subst he2 ha2
      have hstrip : stripAttr ⟨ac, ap, none, none⟩ = ⟨ac, ap, none, none⟩ := rfl
      simp only [List.map_cons, hstrip]
      have hext : extractMethodAnnotations ((k, (⟨ac, ap, none, none⟩ : Attr)) :: rest) =
          extractMethodAnnotations rest := by
        cases ac <;> simp [extractMethodAnnotations]
      rw [hext]
      rw [applyMethodAnnotationsL_cons_ne k ⟨ac, ap, none, none⟩
        (extractMethodAnnotations rest) (rest.map fun p => (p.1, stripAttr p.2)) hne]
      rw [ih hnrest hgrest]
    · -- attribute carrying both tags with export true: the extracted record
      -- restores both tags on the stripped copy
      have hc2 : ac = true := hc
      have he2 : aoe = some true := by simpa using he
      obtain ⟨l, ha2⟩ := Option.isSome_iff_exists.mp ha
      subst hc2 he2 ha2
      have hext : extractMethodAnnotations ((k, (⟨true, ap, some true, some l⟩ : Attr)) :: rest) =
          (⟨k, some true, some l⟩ : SerializableMethodAnnotation) ::
            extractMethodAnnotations rest := by
        simp [extractMethodAnnotations]
      have hstrip : stripAttr ⟨true, ap, some true, some l⟩ =
          ⟨true, ap, none, none⟩ := rfl
      have hstep : applyMethodAnnotationL
          ((k, (⟨true, ap, none, none⟩ : Attr)) ::
            (rest.map fun p => (p.1, stripAttr p.2)))
          ⟨k, some true, some l⟩ =
          ((k, ⟨true, ap, some true, some l⟩) ::
            (rest.map fun p => (p.1, stripAttr p.2)), none) := by
        simp [applyMethodAnnotationL, applyArgStep, dictGet, dictSet,
          «export», annotate_args]
      simp only [List.map_cons, hstrip, hext]
      simp only [applyMethodAnnotationsL, hstep]
      rw [applyMethodAnnotationsL_cons_ne k ⟨true, ap, some true, some l⟩
        (extractMethodAnnotations rest) (rest.map fun p => (p.1, stripAttr p.2)) hne]
      rw [ih hnrest hgrest]

mutual

theorem roundtrip_module : ∀ (m : Module),
    wellFormedB m = true → tagsGoodB m = true →
    apply_serializable_annotations (stripTags m)
      (extract_serializable_annotations m) = (m, none)
  | .mk attrs children => by
    intro hwf hg
    simp only [wellFormedB, Bool.and_eq_true] at hwf
    obtain ⟨⟨hna, hnc⟩, hwfc⟩ := hwf
    simp only [tagsGoodB, Bool.and_eq_true] at hg
    obtain ⟨hga, hgc⟩ := hg
    have hattrs := roundtrip_attrs attrs hna hga
    have hsubs := roundtrip_subs children hnc hwfc hgc
    simp [stripTags, extract_serializable_annotations,
      apply_serializable_annotations, hattrs, hsubs]

theorem roundtrip_subs : ∀ (l : List (String × Module)),
    nodupKeysB l = true → wfSubsB l = true → tagsGoodSubsB l = true →
    applySubmodulesL (stripSubs l) (extractSubmodules l) = (l, none)
  | [] => by intro _ _ _; rfl
  | (n, c) :: rest => by
    intro hn hwf hg
    simp only [nodupKeysB, Bool.and_eq_true] at hn
    obtain ⟨hall, hnrest⟩ := hn
    simp only [wfSubsB, Bool.and_eq_true] at hwf
    obtain ⟨hwfc, hwfrest⟩ := hwf
    simp only [tagsGoodSubsB, Bool.and_eq_true] at hg
    obtain ⟨hgc, hgrest⟩ := hg
    have hall2 : ∀ q ∈ rest, q.1 ≠ n := by
      intro q hq
      simpa using List.all_eq_true.mp hall q hq
    have hsubnames : ∀ q ∈ extractSubmodules rest, q.1 ≠ n := by
      intro q hq
      have hmem : q.1 ∈ (extractSubmodules rest).map Prod.fst :=
        List.mem_map_of_mem Prod.fst hq
      rw [extractSubmodules_map_fst] at hmem
      rw [List.mem_map] at hmem
      obtain ⟨q2, hq2, he⟩ := hmem
      exact he ▸ hall2 q2 hq2
    have hmod := roundtrip_module c hwfc hgc
    have hrest2 := roundtrip_subs rest hnrest hwfrest hgrest
    have hcons := applySubmodulesL_cons_ne n c (extractSubmodules rest)
      (stripSubs rest) hsubnames
    simp [stripSubs, extractSubmodules, applySubmodulesL, dictGet, dictSet,
      hmod, hcons, hrest2]

end

/-- C1 (amended): round-trip holds when every tagged attribute is a callable
method carrying both tags with export flag `true` (the only tag states the
decorators produce): applying the extracted annotations of `source` to the
structurally identical untagged copy `stripTags source` succeeds and
restores `source` exactly, so all tags — export flags and arg-annotation
sequences, including `None` entries and `-1` wildcard sizes — match the
source element-wise.  The amendment: the claim's precondition (only methods
carrying the export tag need both) does not suffice, see the
counterexample. -/
theorem claim1_round_trip (source : Module)
    (hwf : wellFormedB source = true) (hg : tagsGoodB source = true) :
    apply_serializable_annotations (stripTags source)
      (extract_serializable_annotations source) = (source, none) :=
  roundtrip_module source hwf hg

/-- Counterexample to C1 as stated: in `onlyArgsSource` no method carries
the export tag, so the stated precondition ("every exported method carries
both tags") holds vacuously; yet after applying the extracted annotations to
the structurally identical untagged copy, the target's method `f` carries no
arg-annotations tag, while the source's `f` does — the tags do not match. -/
theorem claim1_counterexample :
    exportedImpliesBothB onlyArgsSource = true ∧
    wellFormedB onlyArgsSource = true ∧
    dictGet ((apply_serializable_annotations (stripTags onlyArgsSource)
        (extract_serializable_annotations onlyArgsSource)).1).attrs "f" =
      some ⟨true, 0, none, none⟩ ∧
    dictGet onlyArgsSource.attrs "f" = some ⟨true, 0, none, some []⟩ ∧
    ((⟨true, 0, none, none⟩ : Attr) ≠ ⟨true, 0, none, some []⟩) :=
  ⟨rfl, rfl, rfl, rfl, by decide⟩

/-- Witness for the amended C1 at a concrete input. -/
theorem claim1_witness :
    wellFormedB roundTripSample = true ∧
    tagsGoodB roundTripSample = true ∧
    apply_serializable_annotations (stripTags roundTripSample)
      (extract_serializable_annotations roundTripSample) =
      (roundTripSample, none) :=
  ⟨rfl, rfl, claim1_round_trip roundTripSample rfl rfl⟩

end Torchscript
